import Mathlib

/-!
Shallow embedding of `provider/provider.go` (package `provider`): the base
provider's tag-constraint matcher, its template-driven configuration
synthesis pipeline, and its string utilities, together with proofs of the
specification claims about them.

Go strings are modelled as Lean `String` (sequences of Unicode code points),
Go errors as `String`, fallible Go calls as `Except String _`.  External
collaborators (the filesystem, the embedded asset store, the `text/template`
engine, the TOML decoder, the sprig function library) are modelled as
abstract oracles supplied as parameters, exactly where the Go code calls out
to them.
-/

namespace Provider

/-- A tag constraint (`types.Constraint`): a pattern `value` that the tags of
a candidate must (`mustMatch = true`) or must not (`mustMatch = false`)
match. -/
structure Constraint where
  key : String
  value : String
  mustMatch : Bool
deriving DecidableEq

/-- The `BaseProvider` struct of `provider.go`. -/
structure BaseProvider where
  Watch : Bool
  Filename : String
  Constraints : List Constraint
  Trace : Bool
  DebugLogGeneratedTemplate : Bool
deriving DecidableEq

/-- Modelled from the spec: `types.Constraint.MatchConstraintWithAtLeastOneTag`
lives in the `types` package, outside this fragment.  Per the spec it holds
iff some tag satisfies the constraint's pattern; the single tag-vs-pattern
comparison is expressly left open by the spec ("exact or glob-like match"),
so it is abstracted as the parameter `satisfies tag pattern`. -/
def MatchConstraintWithAtLeastOneTag (satisfies : String → String → Bool)
    (c : Constraint) (tags : List String) : Bool :=
  tags.any fun tag => satisfies tag c.value

/-- The condition on which the loop in `BaseProvider.MatchConstraints`
short-circuits: the exists-a-matching-tag test disagrees with the
constraint's `mustMatch` flag (the `ok != constraint.MustMatch` test). -/
def unsat (satisfies : String → String → Bool) (tags : List String)
    (c : Constraint) : Bool :=
  MatchConstraintWithAtLeastOneTag satisfies c tags != c.mustMatch

/-- The `for _, constraint := range p.Constraints` loop body of
`BaseProvider.MatchConstraints`. -/
def matchLoop (satisfies : String → String → Bool) (tags : List String) :
    List Constraint → Bool × Option Constraint
  | [] => (true, none)
  | c :: rest =>
    if unsat satisfies tags c then
      (false, some c)
    else
      matchLoop satisfies tags rest

/-- Method `BaseProvider.MatchConstraints` from `provider.go`: early `(true, nil)`
return when both tags and constraints are empty, otherwise scan the
constraints in order and report the first mismatching one. -/
def BaseProvider.MatchConstraints (satisfies : String → String → Bool)
    (p : BaseProvider) (tags : List String) : Bool × Option Constraint :=
  if tags.length = 0 ∧ p.Constraints.length = 0 then
    (true, none)
  else
    matchLoop satisfies tags p.Constraints

theorem matchLoop_eq_find (satisfies : String → String → Bool)
    (tags : List String) (cs : List Constraint) :
    matchLoop satisfies tags cs =
      match cs.find? (unsat satisfies tags) with
      | some c => (false, some c)
      | none => (true, none) := by
  induction cs with
  | nil => rfl
  | cons c rest ih =>
    by_cases h : unsat satisfies tags c = true
    · rw [List.find?_cons_of_pos _ h]
      simp only [matchLoop, if_pos h]
    · rw [List.find?_cons_of_neg _ h, ← ih]
      simp only [matchLoop, if_neg h]

theorem MatchConstraints_eq_find (satisfies : String → String → Bool)
    (p : BaseProvider) (tags : List String) :
    p.MatchConstraints satisfies tags =
      match p.Constraints.find? (unsat satisfies tags) with
      | some c => (false, some c)
      | none => (true, none) := by
  rw [BaseProvider.MatchConstraints]
  by_cases h : tags.length = 0 ∧ p.Constraints.length = 0
  · rw [if_pos h]
    have : p.Constraints = [] := List.length_eq_zero.mp h.2
    rw [this]
    rfl
  · rw [if_neg h, matchLoop_eq_find]

/-- C1: `MatchConstraints` evaluates the constraints in order; a constraint
is satisfied iff (some tag matches its pattern) equals its `mustMatch` flag;
the result is `(false, c)` for the first unsatisfied constraint `c` (later
constraints are irrelevant, captured by the first-match semantics of
`List.find?`), and `(true, none)` iff every constraint is satisfied —
including the case of zero constraints with non-empty tags. -/
theorem MatchConstraints_first_failing (satisfies : String → String → Bool)
    (p : BaseProvider) (tags : List String) :
    (p.MatchConstraints satisfies tags =
      match p.Constraints.find?
          (fun c => MatchConstraintWithAtLeastOneTag satisfies c tags != c.mustMatch) with
      | some c => (false, some c)
      | none => (true, none)) ∧
    (p.MatchConstraints satisfies tags = (true, none) ↔
      ∀ c ∈ p.Constraints,
        MatchConstraintWithAtLeastOneTag satisfies c tags = c.mustMatch) := by
  have heq := MatchConstraints_eq_find satisfies p tags
  refine ⟨heq, ?_⟩
  rw [heq]
  constructor
  · intro h c hc
    cases hfind : p.Constraints.find? (unsat satisfies tags) with
    | some c' => rw [hfind] at h; exact absurd h (by simp)
    | none =>
      have := List.find?_eq_none.mp hfind c hc
      simpa [unsat, bne_eq_false_iff_eq] using this
  · intro h
    have hfind : p.Constraints.find? (unsat satisfies tags) = none := by
      apply List.find?_eq_none.mpr
      intro c hc
      simp [unsat, bne_eq_false_iff_eq, h c hc]
    rw [hfind]

/-- C6: `MatchConstraints` never fails: with both the tag list and the
constraint set empty it returns `(true, none)`, and on every input it
returns either `(true, none)` or `(false, some c)` for a constraint `c` of
the set — a boolean plus an optional constraint, never an error. -/
theorem MatchConstraints_total (satisfies : String → String → Bool)
    (p : BaseProvider) (tags : List String) :
    ((tags = [] ∧ p.Constraints = []) →
      p.MatchConstraints satisfies tags = (true, none)) ∧
    (p.MatchConstraints satisfies tags = (true, none) ∨
      ∃ c ∈ p.Constraints, p.MatchConstraints satisfies tags = (false, some c)) := by
  constructor
  · rintro ⟨h1, h2⟩
    rw [BaseProvider.MatchConstraints, if_pos (by simp [h1, h2])]
  · rw [MatchConstraints_eq_find satisfies p tags]
    cases hfind : p.Constraints.find? (unsat satisfies tags) with
    | none => exact Or.inl rfl
    | some c => exact Or.inr ⟨c, List.mem_of_find?_eq_some hfind, rfl⟩

/-- Witness for C6 at a concrete input. -/
theorem MatchConstraints_total_witness :
    BaseProvider.MatchConstraints (fun _ _ => false)
      ⟨false, "", [], false, false⟩ [] = (true, none) :=
  (MatchConstraints_total (fun _ _ => false)
      ⟨false, "", [], false, false⟩ []).1 ⟨rfl, rfl⟩

/-- C10: with an empty tag list and a non-empty constraint set, filtering is
not disabled: every constraint's exists-a-matching-tag test is `false`, so
the result is `(false, c)` for the first constraint `c` with
`mustMatch = true`, and `(true, none)` exactly when every constraint has
`mustMatch = false`. -/
theorem MatchConstraints_empty_tags (satisfies : String → String → Bool)
    (p : BaseProvider) (hne : p.Constraints ≠ []) :
    (p.MatchConstraints satisfies [] =
      match p.Constraints.find? (fun c => c.mustMatch) with
      | some c => (false, some c)
      | none => (true, none)) ∧
    (p.MatchConstraints satisfies [] = (true, none) ↔
      ∀ c ∈ p.Constraints, c.mustMatch = false) := by
  have hpred : unsat satisfies [] = fun c : Constraint => c.mustMatch := by
    funext c
    rw [unsat, MatchConstraintWithAtLeastOneTag, List.any_nil]
    cases c.mustMatch <;> rfl
  have heq := MatchConstraints_eq_find satisfies p []
  rw [hpred] at heq
  refine ⟨heq, ?_⟩
  rw [heq]
  constructor
  · intro h c hc
    cases hfind : p.Constraints.find? (fun c => c.mustMatch) with
    | some c' => rw [hfind] at h; exact absurd h (by simp)
    | none => simpa using List.find?_eq_none.mp hfind c hc
  · intro h
    have hfind : p.Constraints.find? (fun c : Constraint => c.mustMatch) = none :=
      List.find?_eq_none.mpr fun c hc => by simp [h c hc]
    rw [hfind]

/-- Witness for C10 at a concrete input: one `mustMatch = true` constraint,
empty tags. -/
theorem MatchConstraints_empty_tags_witness :
    (BaseProvider.MatchConstraints (fun _ _ => true)
        ⟨false, "", [⟨"tag", "v", true⟩], false, false⟩ [] =
      match [(⟨"tag", "v", true⟩ : Constraint)].find? (fun c => c.mustMatch) with
      | some c => (false, some c)
      | none => (true, none)) ∧
    (BaseProvider.MatchConstraints (fun _ _ => true)
        ⟨false, "", [⟨"tag", "v", true⟩], false, false⟩ [] = (true, none) ↔
      ∀ c ∈ [(⟨"tag", "v", true⟩ : Constraint)], c.mustMatch = false) :=
  MatchConstraints_empty_tags (fun _ _ => true)
    ⟨false, "", [⟨"tag", "v", true⟩], false, false⟩ (by decide)

/-! ## Template function namespace (`GetConfiguration`, lines 57–64) -/

/-- A value of the template function namespace.  The three overrides that
`GetConfiguration` installs are distinguished constructors; sprig builtins
and caller-supplied functions are carried as tagged opaque values (templates
are never executed inside this model, so only binding identity matters). -/
inductive TmplFunc where
  | goToLower
  | goNormalize
  | goSplit
  | sprigFn (tag : String)
  | callerFn (tag : String)
deriving DecidableEq

/-- A Go `template.FuncMap`: a finite map from names to functions, modelled
by its lookup function. -/
def FuncMap : Type := String → Option TmplFunc

/-- Go map assignment `m[k] = v`. -/
def FuncMap.insert (m : FuncMap) (k : String) (v : TmplFunc) : FuncMap :=
  fun n => if n = k then some v else m n

/-- The `for funcID, funcElement := range funcMap` loop: every binding of
`overrides` is assigned into `m`.  Go map iteration order is unspecified,
but since map keys are unique the resulting map does not depend on it:
lookup prefers `overrides`, falling back to `m`. -/
def FuncMap.insertAll (m overrides : FuncMap) : FuncMap :=
  fun n =>
    match overrides n with
    | some v => some v
    | none => m n

/-- Lines 57–64 of `provider.go`: start from `sprig.TxtFuncMap()`, assign
`tolower`, `normalize` and `split`, then assign every caller-supplied
binding. -/
def buildFuncMap (sprigDefaults funcMap : FuncMap) : FuncMap :=
  ((((sprigDefaults.insert "tolower" .goToLower).insert
      "normalize" .goNormalize).insert
      "split" .goSplit).insertAll funcMap)

/-- C4: the function namespace is assembled with precedence
sprig builtins < the three built-in overrides < caller-supplied functions,
later entries overwriting earlier ones; in particular a caller-supplied
binding for a builtin name such as `normalize` is the one bound in the
namespace handed to template execution. -/
theorem buildFuncMap_precedence (sprigDefaults funcMap : FuncMap) :
    (∀ n : String,
      buildFuncMap sprigDefaults funcMap n =
        match funcMap n with
        | some v => some v
        | none =>
          if n = "split" then some .goSplit
          else if n = "normalize" then some .goNormalize
          else if n = "tolower" then some .goToLower
          else sprigDefaults n) ∧
    (∀ f : TmplFunc, funcMap "normalize" = some f →
      buildFuncMap sprigDefaults funcMap "normalize" = some f) := by
  constructor
  · intro n
    rw [buildFuncMap, FuncMap.insertAll]
    cases funcMap n with
    | some v => rfl
    | none => rfl
  · intro f hf
    rw [buildFuncMap, FuncMap.insertAll, hf]

/-! ## Template source resolution and the synthesis pipeline -/

/-- The external collaborators `GetConfiguration` calls out to, in the order
the Go code consults them: `ioutil.ReadFile`, `gentemplates.Asset`,
`sprig.TxtFuncMap()`, `template.Parse` (taking the template name given to
`template.New` and the bound function namespace), `template.Execute`
against the data context, and `toml.Decode`. -/
structure SynthEnv (Tmpl Ctx Cfg : Type) where
  readFile : String → Except String String
  asset : String → Except String String
  sprigTxtFuncMap : FuncMap
  parse : String → FuncMap → String → Except String Tmpl
  execute : Tmpl → Ctx → Except String String
  decode : String → Except String Cfg

/-- Method `BaseProvider.getTemplateContent` from `provider.go`: explicit filename
override first, then the `.tmpl`-suffixed embedded asset, else the default
template identifier itself is the template text.  Only the filesystem and
asset oracles are consulted. -/
def BaseProvider.getTemplateContent {Tmpl Ctx Cfg : Type}
    (env : SynthEnv Tmpl Ctx Cfg) (p : BaseProvider)
    (defaultTemplateFile : String) : Except String String :=
  if p.Filename.length > 0 then
    match env.readFile p.Filename with
    | .error e => .error e
    | .ok buf => .ok buf
  else if defaultTemplateFile.endsWith ".tmpl" then
    match env.asset defaultTemplateFile with
    | .error e => .error e
    | .ok buf => .ok buf
  else
    .ok defaultTemplateFile

/-- Method `BaseProvider.GetConfiguration` from `provider.go`: build the function
namespace, resolve the template source, parse, execute, decode; the first
failing stage aborts the whole call.  The `DebugLogGeneratedTemplate` log
emission is observational only and does not appear in the value model. -/
def BaseProvider.GetConfiguration {Tmpl Ctx Cfg : Type}
    (env : SynthEnv Tmpl Ctx Cfg) (p : BaseProvider)
    (defaultTemplateFile : String) (funcMap : FuncMap)
    (templateObjects : Ctx) : Except String Cfg :=
  let defaultFuncMap := buildFuncMap env.sprigTxtFuncMap funcMap
  match p.getTemplateContent env defaultTemplateFile with
  | .error e => .error e
  | .ok tmplContent =>
    match env.parse p.Filename defaultFuncMap tmplContent with
    | .error e => .error e
    | .ok tmpl =>
      match env.execute tmpl templateObjects with
      | .error e => .error e
      | .ok renderedTemplate =>
        match env.decode renderedTemplate with
        | .error e => .error e
        | .ok configuration => .ok configuration

theorem length_pos_of_ne_empty (s : String) (h : s ≠ "") : 0 < s.length := by
  cases s with
  | mk l =>
    cases l with
    | nil => exact absurd rfl h
    | cons c cs => simp [String.length]

/-- Witness for C4's override clause needs a concrete caller map. -/
def callerMapW : FuncMap :=
  fun n => if n = "normalize" then some (.callerFn "x") else none

/-- Witness for C4 at a concrete input: a caller map overriding `normalize`. -/
theorem buildFuncMap_precedence_witness :
    buildFuncMap (fun _ => none) callerMapW "normalize" =
      some (.callerFn "x") :=
  (buildFuncMap_precedence (fun _ => none) callerMapW).2 (.callerFn "x") rfl

/-- With a non-empty filename override, `getTemplateContent` is exactly the
filesystem read. -/
theorem getTemplateContent_readFile {Tmpl Ctx Cfg : Type}
    (env : SynthEnv Tmpl Ctx Cfg) (p : BaseProvider) (d : String)
    (hne : p.Filename ≠ "") :
    p.getTemplateContent env d = env.readFile p.Filename := by
  rw [BaseProvider.getTemplateContent,
    if_pos (length_pos_of_ne_empty _ hne)]
  cases env.readFile p.Filename with
  | error e => rfl
  | ok buf => rfl

/-- C3: template source resolution precedence: a non-empty `Filename`
override makes the call return exactly the filesystem read's result (its
full contents on success, its error on failure, never falling through);
otherwise a `.tmpl`-suffixed default template identifier makes it return
exactly the asset store's result; otherwise the identifier itself is the
template text. -/
theorem getTemplateContent_precedence {Tmpl Ctx Cfg : Type}
    (env : SynthEnv Tmpl Ctx Cfg) (p : BaseProvider) (d : String) :
    (p.Filename ≠ "" →
      p.getTemplateContent env d = env.readFile p.Filename) ∧
    (p.Filename = "" → d.endsWith ".tmpl" = true →
      p.getTemplateContent env d = env.asset d) ∧
    (p.Filename = "" → d.endsWith ".tmpl" = false →
      p.getTemplateContent env d = .ok d) := by
  refine ⟨fun hne => getTemplateContent_readFile env p d hne,
    fun hemp hsuf => ?_, fun hemp hsuf => ?_⟩
  · rw [BaseProvider.getTemplateContent, hemp, if_neg (by simp), if_pos hsuf]
    cases env.asset d with
    | error e => rfl
    | ok buf => rfl
  · rw [BaseProvider.getTemplateContent, hemp, if_neg (by simp),
      if_neg (by simp [hsuf])]

/-- A concrete environment used by the witnesses: the filesystem always
fails, every other collaborator succeeds by passing its input through. -/
def envW : SynthEnv String String String where
  readFile := fun _ => .error "no such file"
  asset := fun n => .ok n
  sprigTxtFuncMap := fun _ => none
  parse := fun _ _ content => .ok content
  execute := fun t _ => .ok t
  decode := fun r => .ok r

/-- Witness for C3 at a concrete input: filename override set, file
unreadable. -/
theorem getTemplateContent_precedence_witness :
    BaseProvider.getTemplateContent envW
        ⟨false, "cfg.toml", [], false, false⟩ "default.tmpl" =
      envW.readFile "cfg.toml" :=
  (getTemplateContent_precedence envW
      ⟨false, "cfg.toml", [], false, false⟩ "default.tmpl").1 (by decide)

/-- C2: `GetConfiguration` succeeds iff all four stages (template source
resolution, parse, execute, decode) succeed in sequence, and the returned
configuration is exactly the decoder's output; when the filename override is
set and the file is unreadable, the call returns the read error — and since
the statement holds for arbitrary `parse`, `execute` and `decode` oracles,
those stages are never reached. -/
theorem GetConfiguration_stages {Tmpl Ctx Cfg : Type}
    (env : SynthEnv Tmpl Ctx Cfg) (p : BaseProvider) (d : String)
    (funcMap : FuncMap) (ctx : Ctx) :
    (∀ cfg : Cfg,
      p.GetConfiguration env d funcMap ctx = .ok cfg ↔
        ∃ content tmpl rendered,
          p.getTemplateContent env d = .ok content ∧
          env.parse p.Filename (buildFuncMap env.sprigTxtFuncMap funcMap)
              content = .ok tmpl ∧
          env.execute tmpl ctx = .ok rendered ∧
          env.decode rendered = .ok cfg) ∧
    (∀ e : String, p.Filename ≠ "" → env.readFile p.Filename = .error e →
      p.GetConfiguration env d funcMap ctx = .error e) := by
  constructor
  · intro cfg
    rw [BaseProvider.GetConfiguration]
    cases hc : p.getTemplateContent env d with
    | error e => simp
    | ok content =>
      cases hp : env.parse p.Filename
          (buildFuncMap env.sprigTxtFuncMap funcMap) content with
      | error e => simp [hp]
      | ok tmpl =>
        cases hx : env.execute tmpl ctx with
        | error e => simp [hp, hx]
        | ok rendered =>
          cases hd : env.decode rendered with
          | error e => simp [hp, hx, hd]
          | ok c => simp [hp, hx, hd]
  · intro e hne hread
    have hc : p.getTemplateContent env d = .error e := by
      rw [getTemplateContent_readFile env p d hne, hread]
    rw [BaseProvider.GetConfiguration, hc]

/-- Witness for C2 at a concrete input: filename override set, filesystem
read fails, the pipeline returns the read error. -/
theorem GetConfiguration_stages_witness :
    BaseProvider.GetConfiguration envW
        ⟨false, "cfg.toml", [], false, false⟩ "default.tmpl"
        (fun _ => none) "ctx" = .error "no such file" :=
  (GetConfiguration_stages envW ⟨false, "cfg.toml", [], false, false⟩
      "default.tmpl" (fun _ => none) "ctx").2 "no such file" (by decide) rfl


/-! ## `split` (lines 114–116) -/

/-- The cut loop of Go `strings.Split` for a non-empty separator
`sc :: scs`: scan left to right; at each leftmost occurrence of the
separator, cut and continue right after it.  The `fuel` argument (always
at least the length of the scanned list, shrinking together with it) only
makes the recursion structural; it never influences the result. -/
def splitSepGo (sc : Char) (scs : List Char) : Nat → List Char → List (List Char)
  | _, [] => [[]]
  | 0, l => [l]
  | fuel + 1, c :: rest =>
    if (sc :: scs).isPrefixOf (c :: rest) then
      [] :: splitSepGo sc scs fuel (rest.drop scs.length)
    else
      match splitSepGo sc scs fuel rest with
      | [] => [[c]]
      | r :: rs => (c :: r) :: rs

/-- Go `strings.Split(s, sep)`, per its documented semantics: an empty
separator explodes `s` into its code points (so both arguments empty gives
the empty slice); a non-empty separator cuts `s` at each leftmost
occurrence. -/
def goSplit (s sep : String) : List String :=
  match sep.data with
  | [] => s.data.map fun c => String.mk [c]
  | sc :: scs => (splitSepGo sc scs s.data.length s.data).map String.mk

/-- Function `split` from `provider.go`: `return strings.Split(s, sep)` (note the
flipped argument order of the wrapper). -/
def split (sep s : String) : List String :=
  goSplit s sep

theorem splitSepGo_not_occurs (sc : Char) (scs : List Char) :
    ∀ (fuel : Nat) (l : List Char), ¬ (sc :: scs) <:+: l →
      splitSepGo sc scs fuel l = [l] := by
  intro fuel
  induction fuel with
  | zero =>
    intro l _
    cases l with
    | nil => rfl
    | cons c rest => rfl
  | succ m ih =>
    intro l h
    cases l with
    | nil => rfl
    | cons c rest =>
      have hpre : ¬ (sc :: scs).isPrefixOf (c :: rest) = true := by
        intro hp
        have hp' := List.isPrefixOf_iff_prefix.mp hp
        exact h ( List.IsPrefix.isInfix hp')
      simp only [splitSepGo]
      rw [if_neg hpre, ih rest fun hi => h ( List.infix_cons hi)]

/-- Counterexample for C9 as stated: with both the separator and the string
empty, `split` returns the empty sequence, not a single empty-string
element. -/
theorem split_empty_sep_counterexample :
    split "" "" = [] ∧ split "" "" ≠ [""] := by
  constructor
  · rfl
  · intro h
    exact absurd h (by decide)

/-- C9 (amended): `split sep s` is a literal substring split; whenever `sep`
does not occur in `s` as a substring the result is `[s]`; whenever `s` is
empty and `sep` is non-empty the result is `[""]`; and
`split "," "a,b,c" = ["a", "b", "c"]`. -/
theorem split_literal (sep s : String) :
    (¬ sep.data <:+: s.data → split sep s = [s]) ∧
    (sep ≠ "" → split sep "" = [""]) ∧
    split "," "a,b,c" = ["a", "b", "c"] := by
  refine ⟨fun hni => ?_, fun hne => ?_, by decide⟩
  · cases hsep : sep.data with
    | nil =>
      exact absurd (hsep ▸ List.nil_infix) hni
    | cons sc scs =>
      rw [hsep] at hni
      simp only [split, goSplit, hsep]
      rw [splitSepGo_not_occurs sc scs s.data.length s.data hni]
      cases s with
      | mk l => rfl
  · cases hsep : sep.data with
    | nil =>
      refine absurd ?_ hne
      cases sep with
      | mk l =>
        have hl : l = [] := hsep
        rw [hl]
    | cons sc scs =>
      simp only [split, goSplit, hsep]
      rfl

/-- Witness for C9's amended theorem at concrete inputs. -/
theorem split_literal_witness :
    split "," "ab" = ["ab"] ∧ split "," "" = [""] :=
  ⟨(split_literal "," "ab").1 (by decide), (split_literal "," "").2.1 (by decide)⟩

/-! ## `ReverseStringSlice` (lines 129–133) -/

/-- The swap loop of `ReverseStringSlice`: the simultaneous assignment
`(*slice)[i], (*slice)[j] = (*slice)[j], (*slice)[i]` followed by
`i, j = i+1, j-1`, while `i < j`. -/
def revSwapLoop (l : List String) (i j : Nat) : List String :=
  if i < j then
    revSwapLoop ((l.set i (l.getD j "")).set j (l.getD i "")) (i + 1) (j - 1)
  else
    l
termination_by j - i
decreasing_by omega

/-- Function `ReverseStringSlice` from `provider.go`; the in-place mutation is
modelled by returning the slice's final value. -/
def ReverseStringSlice (slice : List String) : List String :=
  revSwapLoop slice 0 (slice.length - 1)

theorem revSwapLoop_getElem :
    ∀ (n : Nat) (l : List String) (i j : Nat), j - i ≤ n →
      i + j + 1 = l.length →
      (revSwapLoop l i j).length = l.length ∧
      ∀ k, (revSwapLoop l i j)[k]? =
        if k < i ∨ j < k then l[k]? else l[l.length - 1 - k]? := by
  intro n
  induction n with
  | zero =>
    intro l i j hn hlen
    have hij : ¬ i < j := by omega
    rw [revSwapLoop, if_neg hij]
    refine ⟨rfl, fun k => ?_⟩
    by_cases hk : k < i ∨ j < k
    · rw [if_pos hk]
    · rw [if_neg hk]
      have : l.length - 1 - k = k := by omega
      rw [this]
  | succ m ih =>
    intro l i j hn hlen
    by_cases hij : i < j
    · rw [revSwapLoop, if_pos hij]
      set l' := (l.set i (l.getD j "")).set j (l.getD i "") with hl'
      have hi : i < l.length := by omega
      have hj : j < l.length := by omega
      have hlen' : l'.length = l.length := by
        rw [hl', List.length_set, List.length_set]
      have hget' : ∀ k, l'[k]? =
          if k = j then l[i]? else if k = i then l[j]? else l[k]? := by
        intro k
        rw [hl', List.getElem?_set, List.getElem?_set, List.length_set]
        by_cases hkj : k = j
        · rw [if_pos hkj.symm, if_pos (by omega), if_pos hkj,
            List.getD_eq_getElem?_getD, List.getElem?_eq_getElem hi]
          rfl
        · rw [if_neg fun h => hkj h.symm, if_neg hkj]
          by_cases hki : k = i
          · rw [if_pos hki.symm, if_pos hi, if_pos hki,
              List.getD_eq_getElem?_getD, List.getElem?_eq_getElem hj]
            rfl
          · rw [if_neg fun h => hki h.symm, if_neg hki]
      obtain ⟨ihlen, ihget⟩ := ih l' (i + 1) (j - 1) (by omega) (by omega)
      refine ⟨ihlen.trans hlen', fun k => ?_⟩
      rw [ihget k, hlen']
      by_cases hki : k < i
      · rw [if_pos (by omega : k < i + 1 ∨ j - 1 < k), hget' k,
          if_neg (by omega), if_neg (by omega),
          if_pos (Or.inl hki)]
      · by_cases hkeqi : k = i
        · subst hkeqi
          rw [if_pos (by omega : k < k + 1 ∨ j - 1 < k), hget' k,
            if_neg (by omega), if_pos rfl, if_neg (by omega),
            (by omega : l.length - 1 - k = j)]
        · by_cases hkj : k < j
          · rw [if_neg (by omega : ¬ (k < i + 1 ∨ j - 1 < k)),
              if_neg (by omega : ¬ (k < i ∨ j < k)), hget' (l.length - 1 - k),
              if_neg (by omega), if_neg (by omega)]
          · by_cases hkeqj : k = j
            · subst hkeqj
              rw [if_pos (by omega : k < i + 1 ∨ k - 1 < k), hget' k,
                if_pos rfl, if_neg (by omega),
                (by omega : l.length - 1 - k = i)]
            · rw [if_pos (by omega : k < i + 1 ∨ j - 1 < k), hget' k,
                if_neg (by omega), if_neg (by omega),
                if_pos (by omega : k < i ∨ j < k)]
    · rw [revSwapLoop, if_neg hij]
      refine ⟨rfl, fun k => ?_⟩
      by_cases hk : k < i ∨ j < k
      · rw [if_pos hk]
      · rw [if_neg hk]
        have : l.length - 1 - k = k := by omega
        rw [this]

theorem ReverseStringSlice_eq_reverse (l : List String) :
    ReverseStringSlice l = l.reverse := by
  cases hl : l with
  | nil =>
    rw [ReverseStringSlice, revSwapLoop, if_neg (by decide)]
    rfl
  | cons a rest =>
    rw [← hl]
    have hlen : 1 ≤ l.length := by rw [hl]; simp
    obtain ⟨hL, hG⟩ := revSwapLoop_getElem l.length l 0 (l.length - 1)
      (by omega) (by omega)
    apply List.ext_getElem?
    intro k
    rw [ReverseStringSlice, hG k]
    by_cases hk : k < l.length
    · rw [if_neg (by omega), List.getElem?_reverse hk]
    · rw [if_pos (by omega)]
      have h1 : l[k]? = none := List.getElem?_eq_none (by omega)
      have h2 : l.reverse[k]? = none :=
        List.getElem?_eq_none (by rw [List.length_reverse]; omega)
      rw [h1, h2]

/-- C8: `ReverseStringSlice` is an involution (applying it twice restores
the original sequence, any length ≥ 0), a no-op on sequences of length 0 or
1, and one application exchanges element `i` with element `len-1-i` for
every `i`, leaving the middle element of an odd-length sequence in place. -/
theorem ReverseStringSlice_involution (l : List String) :
    ReverseStringSlice (ReverseStringSlice l) = l ∧
    (l.length ≤ 1 → ReverseStringSlice l = l) ∧
    (∀ i, i < l.length →
      (ReverseStringSlice l).getD i "" = l.getD (l.length - 1 - i) "") ∧
    (l.length % 2 = 1 →
      (ReverseStringSlice l).getD (l.length / 2) "" =
        l.getD (l.length / 2) "") := by
  refine ⟨by rw [ReverseStringSlice_eq_reverse, ReverseStringSlice_eq_reverse,
      List.reverse_reverse], fun hle => ?_, fun i hi => ?_, fun hodd => ?_⟩
  · rw [ReverseStringSlice_eq_reverse]
    cases l with
    | nil => rfl
    | cons a rest =>
      cases rest with
      | nil => rfl
      | cons b rest' => simp at hle
  · rw [ReverseStringSlice_eq_reverse, List.getD_eq_getElem?_getD,
      List.getD_eq_getElem?_getD, List.getElem?_reverse hi]
  · have hlt : l.length / 2 < l.length := by omega
    rw [ReverseStringSlice_eq_reverse, List.getD_eq_getElem?_getD,
      List.getD_eq_getElem?_getD, List.getElem?_reverse hlt,
      (by omega : l.length - 1 - l.length / 2 = l.length / 2)]

/-- Witness for C8 at concrete inputs. -/
theorem ReverseStringSlice_involution_witness :
    ReverseStringSlice (ReverseStringSlice ["a", "b", "c"]) = ["a", "b", "c"] ∧
    ReverseStringSlice ["a"] = ["a"] ∧
    (ReverseStringSlice ["a", "b", "c"]).getD 0 "" =
      ["a", "b", "c"].getD (["a", "b", "c"].length - 1 - 0) "" ∧
    (ReverseStringSlice ["a", "b", "c"]).getD (["a", "b", "c"].length / 2) "" =
      ["a", "b", "c"].getD (["a", "b", "c"].length / 2) "" :=
  ⟨(ReverseStringSlice_involution ["a", "b", "c"]).1,
    (ReverseStringSlice_involution ["a"]).2.1 (by decide),
    (ReverseStringSlice_involution ["a", "b", "c"]).2.2.1 0 (by decide),
    (ReverseStringSlice_involution ["a", "b", "c"]).2.2.2 (by decide)⟩

/-! ## `Normalize` (lines 120–126) -/

/-- The rune scan underlying Go `strings.FieldsFunc`, per its documented
semantics (split the string at each run of code points satisfying `f`; the
result contains no empty fields), as a right fold producing
`(field currently open at the left end, completed fields to its right)`. -/
def fieldsGo (f : Char → Bool) : List Char → List Char × List (List Char)
  | [] => ([], [])
  | c :: rest =>
    let p := fieldsGo f rest
    if f c then ([], if p.1.isEmpty then p.2 else p.1 :: p.2)
    else (c :: p.1, p.2)

/-- Go `strings.FieldsFunc(s, f)` at the code-point level. -/
def fieldsFuncCore (f : Char → Bool) (l : List Char) : List (List Char) :=
  if (fieldsGo f l).1.isEmpty then (fieldsGo f l).2
  else (fieldsGo f l).1 :: (fieldsGo f l).2

/-- The `fargs` closure of `Normalize`: a rune is a separator iff it is
neither a letter nor a number.  Go classifies runes by the Unicode tables
(`unicode.IsLetter` / `unicode.IsNumber`); the classifiers are parameters
of the model so every theorem below holds for the actual tables. -/
def fargs (isLetter isNumber : Char → Bool) (c : Char) : Bool :=
  !(isLetter c) && !(isNumber c)

/-- Function `Normalize` from `provider.go`:
`strings.Join(strings.FieldsFunc(name, fargs), "-")`. -/
def Normalize (isLetter isNumber : Char → Bool) (name : String) : String :=
  String.mk (List.intercalate ['-']
    (fieldsFuncCore (fargs isLetter isNumber) name.data))

/-- C5's description of `Normalize`, following the spec's words: split the
name on every maximal run of characters that are neither a letter nor a
digit — splitting at every separator character and discarding the empty
fragments arising between adjacent separators — and join the remaining
fragments with `"-"`. -/
def NormalizeSpec (isLetter isNumber : Char → Bool) (name : String) : String :=
  String.mk (List.intercalate ['-']
    ((name.data.splitOnP (fargs isLetter isNumber)).filter
      fun frag => !frag.isEmpty))

theorem fieldsGo_splitOnP (f : Char → Bool) :
    ∀ l : List Char,
      l.splitOnP f = (fieldsGo f l).1 :: (l.splitOnP f).tail ∧
      (fieldsGo f l).2 =
        ((l.splitOnP f).tail).filter (fun frag => !frag.isEmpty) := by
  intro l
  induction l with
  | nil => exact ⟨rfl, rfl⟩
  | cons a rest ih =>
    obtain ⟨ih1, ih2⟩ := ih
    by_cases ha : f a = true
    · refine ⟨?_, ?_⟩
      · simp only [fieldsGo, if_pos ha]
        rw [List.splitOnP_cons, if_pos ha, List.tail_cons]
      · simp only [fieldsGo, if_pos ha]
        rw [List.splitOnP_cons, if_pos ha, List.tail_cons, ih1,
          List.filter_cons, ih2]
        cases h1 : (fieldsGo f rest).1.isEmpty
        · have : (fieldsGo f rest).1 ≠ [] := by
            simpa [List.isEmpty_iff] using h1
          simp [h1, this]
        · have : (fieldsGo f rest).1 = [] := by
            simpa [List.isEmpty_iff] using h1
          simp [h1, this]
    · refine ⟨?_, ?_⟩
      · simp only [fieldsGo, if_neg ha]
        rw [List.splitOnP_cons, if_neg ha, ih1, List.modifyHead_cons,
          List.tail_cons]
      · simp only [fieldsGo, if_neg ha]
        rw [List.splitOnP_cons, if_neg ha, ih1, List.modifyHead_cons,
          List.tail_cons, ih2]

theorem fieldsFuncCore_eq_splitOnP (f : Char → Bool) (l : List Char) :
    fieldsFuncCore f l =
      (l.splitOnP f).filter (fun frag => !frag.isEmpty) := by
  obtain ⟨h1, h2⟩ := fieldsGo_splitOnP f l
  rw [fieldsFuncCore, h1, List.filter_cons, ← h2]
  cases hc : (fieldsGo f l).1.isEmpty
  · have : (fieldsGo f l).1 ≠ [] := by simpa [List.isEmpty_iff] using hc
    simp [hc, this]
  · have : (fieldsGo f l).1 = [] := by simpa [List.isEmpty_iff] using hc
    simp [hc, this]

/-- Function `Normalize` restated through `splitOnP`. -/
theorem Normalize_eq_spec (isLetter isNumber : Char → Bool) (s : String) :
    Normalize isLetter isNumber s = NormalizeSpec isLetter isNumber s := by
  rw [Normalize, NormalizeSpec, fieldsFuncCore_eq_splitOnP]

theorem fieldsGo_congr (f g : Char → Bool) :
    ∀ l : List Char, (∀ c ∈ l, f c = g c) → fieldsGo f l = fieldsGo g l := by
  intro l
  induction l with
  | nil => intro _; rfl
  | cons a rest ih =>
    intro h
    simp only [fieldsGo]
    rw [ih fun c hc => h c (List.mem_cons_of_mem a hc),
      h a (List.mem_cons_self a rest)]

theorem Normalize_congr (isL isN isL' isN' : Char → Bool) (s : String)
    (h : ∀ c ∈ s.data, isL c = isL' c ∧ isN c = isN' c) :
    Normalize isL isN s = Normalize isL' isN' s := by
  rw [Normalize, Normalize, fieldsFuncCore, fieldsFuncCore,
    fieldsGo_congr (fargs isL isN) (fargs isL' isN') s.data
      fun c hc => by rw [fargs, fargs, (h c hc).1, (h c hc).2]]

/-- C5: for every string, `Normalize` equals the spec's description — split
on every maximal run of characters that are neither a letter nor a digit,
discard empty fragments, join with `"-"` (`NormalizeSpec`) — and, for any
classifiers that agree with the Unicode tables on the ASCII range, the
spec's concrete examples hold. -/
theorem Normalize_spec_examples (isLetter isNumber : Char → Bool) (s : String) :
    Normalize isLetter isNumber s = NormalizeSpec isLetter isNumber s ∧
    ((∀ c : Char, c.toNat < 128 →
        isLetter c = c.isAlpha ∧ isNumber c = c.isDigit) →
      Normalize isLetter isNumber "foo.bar" = "foo-bar" ∧
      Normalize isLetter isNumber "a..b" = "a-b" ∧
      Normalize isLetter isNumber "a.b c-d" = "a-b-c-d" ∧
      Normalize isLetter isNumber "  " = "" ∧
      Normalize isLetter isNumber "" = "") := by
  refine ⟨Normalize_eq_spec isLetter isNumber s, fun hascii => ?_⟩
  have hc : ∀ t : String, (∀ c ∈ t.data, c.toNat < 128) →
      Normalize isLetter isNumber t =
        Normalize (fun c => c.isAlpha) (fun c => c.isDigit) t :=
    fun t ht => Normalize_congr isLetter isNumber _ _ t
      fun c hct => hascii c (ht c hct)
  refine ⟨?_, ?_, ?_, ?_, ?_⟩ <;> rw [hc _ (by decide)] <;> decide

/-- Witness for C5 at concrete inputs, with the ASCII classifiers (which
agree with the Unicode tables on the ASCII range). -/
theorem Normalize_spec_examples_witness :
    Normalize (fun c => c.isAlpha) (fun c => c.isDigit) "foo.bar" =
      NormalizeSpec (fun c => c.isAlpha) (fun c => c.isDigit) "foo.bar" ∧
    Normalize (fun c => c.isAlpha) (fun c => c.isDigit) "foo.bar" = "foo-bar" :=
  ⟨(Normalize_spec_examples (fun c => c.isAlpha) (fun c => c.isDigit)
      "foo.bar").1,
    ((Normalize_spec_examples (fun c => c.isAlpha) (fun c => c.isDigit)
      "foo.bar").2 fun c _ => ⟨rfl, rfl⟩).1⟩

theorem splitOnP_mem_not (p : Char → Bool) :
    ∀ (l : List Char), ∀ x ∈ l.splitOnP p, ∀ c ∈ x, p c = false := by
  intro l
  induction l with
  | nil =>
    intro x hx c hc
    rw [List.splitOnP_nil, List.mem_singleton] at hx
    subst hx
    exact absurd hc (List.not_mem_nil c)
  | cons a rest ih =>
    intro x hx c hc
    rw [List.splitOnP_cons] at hx
    by_cases ha : p a = true
    · rw [if_pos ha] at hx
      rcases List.mem_cons.mp hx with h | h
      · subst h
        exact absurd hc (List.not_mem_nil c)
      · exact ih x h c hc
    · rw [if_neg ha] at hx
      cases hsp : rest.splitOnP p with
      | nil => exact absurd hsp (List.splitOnP_ne_nil p rest)
      | cons h0 t0 =>
        rw [hsp, List.modifyHead_cons] at hx
        rcases List.mem_cons.mp hx with h | h
        · subst h
          rcases List.mem_cons.mp hc with hca | hcm
          · subst hca
            exact Bool.eq_false_iff.mpr ha
          · exact ih h0 (hsp ▸ List.mem_cons_self h0 t0) c hcm
        · exact ih x (hsp ▸ List.mem_cons_of_mem h0 h) c hc

theorem intercalate_cons_cons (sep : Char) (x y : List Char)
    (zs : List (List Char)) :
    List.intercalate [sep] (x :: y :: zs) =
      x ++ sep :: List.intercalate [sep] (y :: zs) := by
  rw [List.intercalate, List.intercalate, List.intersperse_cons_cons,
    List.flatten_cons, List.flatten_cons]
  rfl

theorem splitOnP_intercalate (p : Char → Bool) (sep : Char)
    (hsep : p sep = true) :
    ∀ fields : List (List Char), fields ≠ [] →
      (∀ x ∈ fields, ∀ c ∈ x, p c = false) →
      (List.intercalate [sep] fields).splitOnP p = fields := by
  intro fields
  induction fields with
  | nil => intro h _; exact absurd rfl h
  | cons x rest ih =>
    intro _ hchars
    cases rest with
    | nil =>
      have : List.intercalate [sep] [x] = x := by
        rw [List.intercalate]
        simp
      rw [this]
      exact List.splitOnP_eq_single _ _ fun c hc => by
        simp [hchars x (List.mem_cons_self x []) c hc]
    | cons y rest' =>
      have hx : ∀ c ∈ x, ¬ p c = true := fun c hc => by
        simp [hchars x (List.mem_cons_self x (y :: rest')) c hc]
      rw [intercalate_cons_cons, List.splitOnP_first p x hx sep hsep,
        ih (by simp) fun z hz => hchars z (List.mem_cons_of_mem x hz)]

/-- C7: `Normalize` is idempotent, for any classifiers under which `'-'` is
neither a letter nor a number (as with Go's Unicode tables, where `'-'` is
punctuation). -/
theorem Normalize_idempotent (isLetter isNumber : Char → Bool)
    (hL : isLetter '-' = false) (hN : isNumber '-' = false) (s : String) :
    Normalize isLetter isNumber (Normalize isLetter isNumber s) =
      Normalize isLetter isNumber s := by
  have hsep : fargs isLetter isNumber '-' = true := by
    rw [fargs, hL, hN]
    rfl
  have hmem : ∀ x ∈ fieldsFuncCore (fargs isLetter isNumber) s.data,
      x ≠ [] ∧ ∀ c ∈ x, fargs isLetter isNumber c = false := by
    intro x hx
    rw [fieldsFuncCore_eq_splitOnP] at hx
    obtain ⟨hx1, hx2⟩ := List.mem_filter.mp hx
    refine ⟨by simpa [List.isEmpty_iff] using hx2, fun c hc =>
      splitOnP_mem_not (fargs isLetter isNumber) s.data x hx1 c hc⟩
  have key : fieldsFuncCore (fargs isLetter isNumber)
      (List.intercalate ['-']
        (fieldsFuncCore (fargs isLetter isNumber) s.data)) =
      fieldsFuncCore (fargs isLetter isNumber) s.data := by
    cases hc : fieldsFuncCore (fargs isLetter isNumber) s.data with
    | nil =>
      rw [List.intercalate]
      simp [fieldsFuncCore, fieldsGo]
    | cons x rest =>
      rw [← hc, fieldsFuncCore_eq_splitOnP,
        splitOnP_intercalate (fargs isLetter isNumber) '-' hsep
          (fieldsFuncCore (fargs isLetter isNumber) s.data)
          (by rw [hc]; exact List.cons_ne_nil x rest)
          fun z hz => (hmem z hz).2,
        List.filter_eq_self.mpr fun z hz => by
          simp [List.isEmpty_iff, (hmem z hz).1]]
  show Normalize isLetter isNumber
      (String.mk (List.intercalate ['-']
        (fieldsFuncCore (fargs isLetter isNumber) s.data))) = _
  rw [Normalize,
    show (String.mk (List.intercalate ['-']
        (fieldsFuncCore (fargs isLetter isNumber) s.data))).data =
      List.intercalate ['-']
        (fieldsFuncCore (fargs isLetter isNumber) s.data) from rfl,
    key]
  rfl

/-- Witness for C7 at a concrete input, with the ASCII classifiers. -/
theorem Normalize_idempotent_witness :
    Normalize (fun c => c.isAlpha) (fun c => c.isDigit)
        (Normalize (fun c => c.isAlpha) (fun c => c.isDigit) "a.b c-d") =
      Normalize (fun c => c.isAlpha) (fun c => c.isDigit) "a.b c-d" :=
  Normalize_idempotent (fun c => c.isAlpha) (fun c => c.isDigit)
    (by decide) (by decide) "a.b c-d"

end Provider
